import Mathlib

/-!
Shallow embedding of `vse/find_strips_name_type.py` (Blender VSE strip finder).

The script builds, per strip type, a regular expression joining alternatives
of the form `.*<escaped namestring>.*`, filters the sequencer's strips through
`re.match`, and prints the grouped names or canonical file paths.

Embedding conventions:
* Python strings are `String`; Python `None`-able values are `Option`.
* Python dictionaries are association lists (`List (String × α)`) with
  `dlookup`/`dset` mirroring `d[k]` and `d[k] = v` (insert keeps first-binding
  position, new keys append at the end, exactly like CPython dicts).
* `re.match` is embedded by `re_match`: a tokenizer and recursive-descent
  reading of the pattern fragment the script can emit (literal characters,
  backslash escapes, `.`, `*`, `|`) into a regex AST, followed by a
  Brzozowski-derivative prefix matcher.  Python's `.` does not match a
  newline; the embedding keeps that behaviour.  Constructs outside the
  emitted fragment (groups, classes, repetition other than `*`) are mapped to
  a parse failure; the script never produces them because `re.escape`
  backslash-escapes every metacharacter.
* console output is modelled as the list of strings passed to `print`, in
  order; an uncaught Python exception is modelled by `Option`/`none`.
* Blender strip objects are `Sequence` records carrying exactly the fields
  the script reads (`name`, `type`, `sound.filepath`, `sound.name`,
  `directory`, `elements[0].filename`, `filepath`).  `elements[0]` is
  embedded as `List.headD` with default `""`; the host guarantees an IMAGE
  strip has at least one element.
-/

/-- Abstract syntax of the Python regular-expression fragment the script
emits: the failing regex (arises as a derivative), the empty word, a literal
character, the any-character class `.` (which does not match a newline),
alternation, concatenation and Kleene star. -/
inductive Regex where
  | fail
  | eps
  | char (c : Char)
  | dot
  | alt (r₁ r₂ : Regex)
  | cat (r₁ r₂ : Regex)
  | star (r : Regex)
deriving DecidableEq, Repr

/-- Does the regex accept the empty word? -/
def nullable : Regex → Bool
  | .fail => false
  | .eps => true
  | .char _ => false
  | .dot => false
  | .alt r₁ r₂ => nullable r₁ || nullable r₂
  | .cat r₁ r₂ => nullable r₁ && nullable r₂
  | .star _ => true

/-- Brzozowski derivative of a regex by one character. -/
def rderiv : Regex → Char → Regex
  | .fail, _ => .fail
  | .eps, _ => .fail
  | .char c, a => if a = c then .eps else .fail
  | .dot, a => if a = '\n' then .fail else .eps
  | .alt r₁ r₂, a => .alt (rderiv r₁ a) (rderiv r₂ a)
  | .cat r₁ r₂, a =>
    if nullable r₁ then .alt (.cat (rderiv r₁ a) r₂) (rderiv r₂ a)
    else .cat (rderiv r₁ a) r₂
  | .star r, a => .cat (rderiv r a) (.star r)

/-- Does the regex accept some prefix of the word?  This is the acceptance
notion of Python's `re.match`, which anchors at the start only. -/
def matchPre : Regex → List Char → Bool
  | r, [] => nullable r
  | r, a :: w => nullable r || matchPre (rderiv r a) w

/-- Declarative word-membership semantics of `Regex`. -/
inductive Matches : Regex → List Char → Prop where
  | eps : Matches .eps []
  | char (c : Char) : Matches (.char c) [c]
  | dot (c : Char) (h : c ≠ '\n') : Matches .dot [c]
  | altL {r₁ r₂ : Regex} {w : List Char} : Matches r₁ w → Matches (.alt r₁ r₂) w
  | altR {r₁ r₂ : Regex} {w : List Char} : Matches r₂ w → Matches (.alt r₁ r₂) w
  | cat {r₁ r₂ : Regex} {w₁ w₂ : List Char} :
      Matches r₁ w₁ → Matches r₂ w₂ → Matches (.cat r₁ r₂) (w₁ ++ w₂)
  | starNil {r : Regex} : Matches (.star r) []
  | starCons {r : Regex} {w₁ w₂ : List Char} :
      Matches r w₁ → Matches (.star r) w₂ → Matches (.star r) (w₁ ++ w₂)

/-- Tokens of the emitted pattern fragment. -/
inductive Tok where
  | dot
  | star
  | bar
  | lit (c : Char)
deriving DecidableEq, Repr

/-- Metacharacters engaging regex features outside the emitted fragment;
reading one unescaped is a parse failure in the embedding. -/
def reMetaUnsupported : List Char :=
  ['(', ')', '[', ']', '\x7b', '\x7d', '+', '?', '^', '$']

/-- Tokenize a pattern: a backslash makes the next character a literal, `.`,
`*` and `|` are operators, other supported characters are literals. -/
def tokenize : List Char → Option (List Tok)
  | [] => some []
  | c :: rest =>
    if c = '\\' then
      match rest with
      | [] => none
      | c' :: rest' => (tokenize rest').map (fun ts => Tok.lit c' :: ts)
    else if c = '.' then (tokenize rest).map (fun ts => Tok.dot :: ts)
    else if c = '*' then (tokenize rest).map (fun ts => Tok.star :: ts)
    else if c = '|' then (tokenize rest).map (fun ts => Tok.bar :: ts)
    else if c ∈ reMetaUnsupported then none
    else (tokenize rest).map (fun ts => Tok.lit c :: ts)

/-- Read the atoms of one bar-free alternative, applying a postfix `*` to the
preceding atom; the accumulator holds the atoms read so far in reverse. -/
def parseAtoms : List Tok → List Regex → Option (List Regex)
  | [], acc => some acc
  | Tok.dot :: ts, acc => parseAtoms ts (Regex.dot :: acc)
  | Tok.lit c :: ts, acc => parseAtoms ts (Regex.char c :: acc)
  | Tok.star :: ts, a :: acc => parseAtoms ts (Regex.star a :: acc)
  | Tok.star :: _, [] => none
  | Tok.bar :: _, _ => none

/-- Turn one bar-free token segment into the concatenation of its atoms. -/
def parseSeg (ts : List Tok) : Option Regex :=
  (parseAtoms ts []).map (fun acc => acc.foldl (fun r a => Regex.cat a r) Regex.eps)

/-- Split a token list at its top-level bars (the fragment has no groups, so
every bar is top level). -/
def splitBar : List Tok → List (List Tok)
  | [] => [[]]
  | t :: ts =>
    if t = Tok.bar then [] :: splitBar ts
    else
      match splitBar ts with
      | [] => [[t]]
      | s :: ss => (t :: s) :: ss

/-- Read every alternative of a split pattern, failing if any fails. -/
def parseSegs : List (List Tok) → Option (List Regex)
  | [] => some []
  | ts :: rest =>
    match parseSeg ts with
    | none => none
    | some r =>
      match parseSegs rest with
      | none => none
      | some rs => some (r :: rs)

/-- Read a whole pattern: split on bars, read each alternative, and fold the
alternatives left-associatively as Python does. -/
def parseRe (p : List Char) : Option Regex :=
  match tokenize p with
  | none => none
  | some ts =>
    match parseSegs (splitBar ts) with
    | none => none
    | some [] => none
    | some (r :: rs') => some (rs'.foldl Regex.alt r)

/-- Embedding of Python's `re.match(p, s)` truthiness for the emitted pattern
fragment: parse the pattern and test whether some prefix of `s` matches. -/
def re_match (p s : String) : Bool :=
  match parseRe p.data with
  | some r => matchPre r s.data
  | none => false

/-- Characters Python 3's `re.escape` prefixes with a backslash. -/
def reSpecialChars : List Char :=
  ['(', ')', '[', ']', '\x7b', '\x7d', '?', '*', '+', '-', '|', '^', '$', '\\',
   '.', '&', '~', '#', ' ', '\t', '\n', '\r', '\x0b', '\x0c']

/-- Escape one character as `re.escape` does. -/
def reEscapeChar (c : Char) : List Char :=
  if c ∈ reSpecialChars then ['\\', c] else [c]

/-- Embedding of Python's `re.escape`. -/
def reEscape (s : String) : String :=
  ⟨s.data.foldr (fun c acc => reEscapeChar c ++ acc) []⟩

/-- Embedding of Python's `"|".join`. -/
def joinBar : List String → String
  | [] => ""
  | [s] => s
  | s :: rest => s ++ "|" ++ joinBar rest

/-- Embedding of Python's `"', '".join`. -/
def joinQuote : List String → String
  | [] => ""
  | [s] => s
  | s :: rest => s ++ "', '" ++ joinQuote rest

/-- Embedding of `build_ignored_names_re(namestrings, ignored_res_list)`.
The first component is the returned pattern string; compiled regexes in the
accumulator are represented by their `.pattern` strings (each is compiled
from `".*%s.*" % re.escape(n)`, always a valid pattern).  The second
component is the final state of the mutable `namestrings` list, which the
function empties by popping its last element on every recursive call. -/
def build_ignored_names_re :
    Option (List String) → List String → String × Option (List String)
  | none, acc => (if acc = [] then "" else joinBar acc, none)
  | some [], acc => (if acc = [] then "" else joinBar acc, some [])
  | some (n₀ :: ns), acc =>
    build_ignored_names_re (some ((n₀ :: ns).dropLast))
      (acc ++ [".*" ++ reEscape ((n₀ :: ns).getLast (by simp)) ++ ".*"])
termination_by ns _ => ns.elim 0 List.length
decreasing_by simp

/-- One Blender VSE strip, carrying exactly the attributes the script reads.
`sound_filepath`/`sound_name` stand for `sequence.sound.filepath` and
`sequence.sound.name`; `elements` holds the filenames of
`sequence.elements`. -/
structure Sequence where
  name : String
  type : String
  sound_filepath : String
  sound_name : String
  directory : String
  elements : List String
  filepath : String
deriving DecidableEq, Repr

/-- Lookup in a Python-dict association list (`k in d` is `(dlookup d k).isSome`,
`d[k]` is the value under `some`). -/
def dlookup {α : Type} : List (String × α) → String → Option α
  | [], _ => none
  | (k, v) :: d, k' => if k = k' then some v else dlookup d k'

/-- Assignment `d[k] = v` on a Python-dict association list: replace the first
binding of `k` in place, or append a new binding at the end. -/
def dset {α : Type} : List (String × α) → String → α → List (String × α)
  | [], k, v => [(k, v)]
  | (k₀, v₀) :: d, k, v =>
    if k₀ = k then (k, v) :: d else (k₀, v₀) :: dset d k v

/-- The strip-admission test of `find_sequence_names`, the chain
`t not in d.keys() or not d[t] or not re.match(d[t], name)`: a missing key, a
`None` value or an empty pattern admit everything, otherwise the name must
not match the pattern. -/
def ignore_allows (ignored_res_dict : List (String × Option String))
    (ty nm : String) : Bool :=
  match dlookup ignored_res_dict ty with
  | none => true
  | some none => true
  | some (some p) => if p = "" then true else !(re_match p nm)

/-- The initialisation loop `for t in sequence_types: found_sequences[t] = set([])`.
Python sets of strip objects are represented as lists (strip objects are
distinct, so no collapsing occurs on `add`). -/
def initTypes (sequence_types : List String) : List (String × List Sequence) :=
  sequence_types.foldl (fun d t => dset d t []) []

/-- One iteration of the scan over `sequencer.sequences_all`: the short-circuit
chain adds the strip to its type's set when the type is requested and the
ignore test admits the name. -/
def scanStep (sequence_types : List String) (ignored_res_dict : List (String × Option String))
    (d : List (String × List Sequence)) (s : Sequence) : List (String × List Sequence) :=
  if s.type ∈ sequence_types ∧ ignore_allows ignored_res_dict s.type s.name = true then
    dset d s.type ((dlookup d s.type).getD [] ++ [s])
  else d

/-- Embedding of `find_sequence_names`.  The sequencer is `none` when the
scene has no sequence editor; `.1` is the printed output and `.2` the
returned value (`none` for Python `None`). -/
def find_sequence_names (sequencer : Option (List Sequence))
    (sequence_types : List String) (ignored_res_dict : List (String × Option String)) :
    List String × Option (List (String × List Sequence)) :=
  match sequencer with
  | none => (["Error finding sequence names: SEQUENCE_EDITOR not found"], none)
  | some seqs =>
    ([], some (seqs.foldl (scanStep sequence_types ignored_res_dict)
      (initTypes sequence_types)))

/-- Canonical file path `print_sequence_names` derives for one strip of the
given type, or `none` when the strip contributes nothing: a falsy (empty)
sound or movie path is skipped by the `path and found_files.add(path)`
idiom, and a type other than SOUND/IMAGE/MOVIE hits the `continue` branch. -/
def pathOf (full_paths : Bool) (sequence_type : String) (s : Sequence) : Option String :=
  if sequence_type = "SOUND" then
    let p := if full_paths then s.sound_filepath else s.sound_name
    if p = "" then none else some p
  else if sequence_type = "IMAGE" then
    some (if full_paths then s.directory ++ s.elements.headD "" else s.elements.headD "")
  else if sequence_type = "MOVIE" then
    let p := if full_paths then s.filepath else s.elements.headD ""
    if p = "" then none else some p
  else none

/-- Insertion into a Python set of strings: value-based, no duplicates;
iteration order is modelled as first-insertion order. -/
def setAdd (l : List String) (x : String) : List String :=
  if x ∈ l then l else l ++ [x]

/-- The `found_files` set one type's loop accumulates. -/
def found_files (full_paths : Bool) (sequence_type : String)
    (seqs : List Sequence) : List String :=
  seqs.foldl (fun fl s =>
    match pathOf full_paths sequence_type s with
    | some p => setAdd fl p
    | none => fl) []

/-- Output block of one type in the duplicate-ignoring branch: the
`"\n{0} strips:"` title, then the collected paths, or
`"(0 sequences found)"` when the set is empty. -/
def printBlock (full_paths : Bool) (sequence_type : String)
    (seqs : List Sequence) : List String :=
  ("\n" ++ sequence_type ++ " strips:") ::
    (if found_files full_paths sequence_type seqs = [] then ["(0 sequences found)"]
     else found_files full_paths sequence_type seqs)

/-- Header line `print_sequence_names` always prints first. -/
def headerLine (sequences_by_type : List (String × List Sequence))
    (ignore_duplication : Bool) : String :=
  "\nFound Sequences\n - duplicates " ++
    (if ignore_duplication then "ignored" else "included") ++
    "\n - types include '" ++ joinQuote (sequences_by_type.map Prod.fst) ++ "'"

/-- Embedding of `print_sequence_names`.  `.1` is the printed output in
order, `.2` the returned `{'FINISHED'}` token. -/
def print_sequence_names (sequences_by_type : List (String × List Sequence))
    (ignore_duplication full_paths : Bool) : List String × String :=
  let out₀ := [headerLine sequences_by_type ignore_duplication]
  if ignore_duplication then
    (sequences_by_type.foldl (fun out p => out ++ printBlock full_paths p.1 p.2) out₀,
     "FINISHED")
  else
    (sequences_by_type.foldl
      (fun out p => p.2.foldl (fun o s => o ++ [s.type ++ " sequence: " ++ s.name]) out)
      out₀,
     "FINISHED")

/-- Value stored under one key of the caller's `ignored_names` dictionary as
the run proceeds: the caller supplies lists of namestrings (`names`), and the
regex-building loop replaces each requested key by a pattern string (`pat`)
or Python `None` (`null`). -/
inductive IgnVal where
  | names (l : List String)
  | pat (s : String)
  | null
deriving DecidableEq, Repr

/-- View of the post-loop `ignored_names` dictionary as the
`ignored_res_dict` argument of `find_sequence_names`.  A key still holding a
caller list was not requested, so `find_sequence_names` never consults it;
such a value is mapped to `none` (which admits everything, as the falsy empty
list would). -/
def toRd (d : List (String × IgnVal)) : List (String × Option String) :=
  d.map (fun p => (p.1,
    match p.2 with
    | IgnVal.pat s => some s
    | IgnVal.null => none
    | IgnVal.names _ => none))

/-- The regex-building loop of `run_strip_finder`.  A requested key holding a
caller list is replaced by the built pattern; a missing key is set to `None`.
A requested key already holding `None` or a non-empty string (possible only
through a duplicated requested type or a non-list caller value) makes Python
raise inside `build_ignored_names_re` (`len(None)` or `str.pop`), modelled as
`none`; `build_ignored_names_re("", [])` returns `""` without raising. -/
def buildLoop : List String → List (String × IgnVal) → Option (List (String × IgnVal))
  | [], d => some d
  | t :: ts, d =>
    match dlookup d t with
    | some (IgnVal.names l) =>
      buildLoop ts (dset d t (IgnVal.pat (build_ignored_names_re (some l) []).1))
    | some (IgnVal.pat s) => if s = "" then buildLoop ts (dset d t (IgnVal.pat "")) else none
    | some IgnVal.null => none
    | none => buildLoop ts (dset d t IgnVal.null)

/-- Embedding of `run_strip_finder`.  The ambient
`bpy.context.scene.sequence_editor` consumed through `find_sequence_names`'s
default argument is passed explicitly as `sequencer`.  `.1` is the printed
output; `.2` is `none` when an uncaught exception ends the run (in
particular `print_sequence_names(None, ...)` raising after a missing
sequence editor), and otherwise carries the final `ignored_names`
dictionary. -/
def run_strip_finder (sequence_types : List String)
    (ignored_names : List (String × IgnVal)) (ignore_duplication : Bool)
    (sequencer : Option (List Sequence)) :
    List String × Option (List (String × IgnVal)) :=
  if sequence_types = [] then
    (["0 sequences found - no sequence types provided."], some ignored_names)
  else
    match buildLoop sequence_types ignored_names with
    | none => ([], none)
    | some d =>
      match find_sequence_names sequencer sequence_types (toRd d) with
      | (out, none) => (out, none)
      | (out, some fs) =>
        (out ++ (print_sequence_names fs ignore_duplication true).1, some d)

/-! ### Semantics of the regex fragment -/

theorem matches_eps_inv {w : List Char} (h : Matches Regex.eps w) : w = [] := by
  cases h; rfl

theorem matches_char_inv {c : Char} {w : List Char} (h : Matches (Regex.char c) w) :
    w = [c] := by
  cases h; rfl

theorem matches_dot_inv {w : List Char} (h : Matches Regex.dot w) :
    ∃ c, w = [c] ∧ c ≠ '\n' := by
  cases h with
  | dot c hc => exact ⟨c, rfl, hc⟩

theorem matches_alt_inv {r₁ r₂ : Regex} {w : List Char} (h : Matches (Regex.alt r₁ r₂) w) :
    Matches r₁ w ∨ Matches r₂ w := by
  cases h with
  | altL h => exact Or.inl h
  | altR h => exact Or.inr h

theorem matches_cat_inv {r₁ r₂ : Regex} {w : List Char} (h : Matches (Regex.cat r₁ r₂) w) :
    ∃ w₁ w₂, w = w₁ ++ w₂ ∧ Matches r₁ w₁ ∧ Matches r₂ w₂ := by
  cases h with
  | cat h₁ h₂ => exact ⟨_, _, rfl, h₁, h₂⟩

theorem matches_star_inv_aux {r₀ : Regex} {x : List Char} (h : Matches r₀ x) :
    ∀ r a w, r₀ = Regex.star r → x = a :: w →
      ∃ w₁ w₂, w = w₁ ++ w₂ ∧ Matches r (a :: w₁) ∧ Matches (Regex.star r) w₂ := by
  induction h with
  | eps => intro r a w hr hx; simp at hr
  | char c => intro r a w hr hx; simp at hr
  | dot c hc => intro r a w hr hx; simp at hr
  | altL h ih => intro r a w hr hx; simp at hr
  | altR h ih => intro r a w hr hx; simp at hr
  | cat h₁ h₂ ih₁ ih₂ => intro r a w hr hx; simp at hr
  | starNil => intro r a w hr hx; simp at hx
  | starCons h₁ h₂ ih₁ ih₂ =>
    intro r a w hr hx
    injection hr with hr
    subst hr
    rename_i w₁ w₂
    cases w₁ with
    | nil => exact ih₂ _ a w rfl hx
    | cons b w₁' =>
      simp only [List.cons_append, List.cons.injEq] at hx
      obtain ⟨hb, hw⟩ := hx
      subst hb
      exact ⟨w₁', w₂, hw.symm, h₁, h₂⟩

theorem matches_star_cons {r : Regex} {a : Char} {w : List Char}
    (h : Matches (Regex.star r) (a :: w)) :
    ∃ w₁ w₂, w = w₁ ++ w₂ ∧ Matches r (a :: w₁) ∧ Matches (Regex.star r) w₂ :=
  matches_star_inv_aux h r a w rfl rfl

theorem nullable_iff : ∀ r : Regex, nullable r = true ↔ Matches r [] := by
  intro r
  induction r with
  | fail => simp [nullable]; intro h; nomatch h
  | eps => simp [nullable]; exact Matches.eps
  | char c => simp [nullable]; intro h; simpa using matches_char_inv h
  | dot => simp [nullable]; intro h; obtain ⟨c, hc, _⟩ := matches_dot_inv h; simp at hc
  | alt r₁ r₂ ih₁ ih₂ =>
    simp only [nullable, Bool.or_eq_true, ih₁, ih₂]
    constructor
    · rintro (h | h)
      · exact Matches.altL h
      · exact Matches.altR h
    · intro h; exact matches_alt_inv h
  | cat r₁ r₂ ih₁ ih₂ =>
    simp only [nullable, Bool.and_eq_true, ih₁, ih₂]
    constructor
    · rintro ⟨h₁, h₂⟩; exact Matches.cat h₁ h₂
    · intro h
      obtain ⟨w₁, w₂, hw, h₁, h₂⟩ := matches_cat_inv h
      obtain ⟨h₁', h₂'⟩ := List.append_eq_nil.mp hw.symm
      subst h₁'; subst h₂'
      exact ⟨h₁, h₂⟩
  | star r ih => simp [nullable]; exact Matches.starNil

theorem rderiv_matches : ∀ (r : Regex) (a : Char) (w : List Char),
    Matches (rderiv r a) w ↔ Matches r (a :: w) := by
  intro r
  induction r with
  | fail => intro a w; constructor <;> (intro h; nomatch h)
  | eps =>
    intro a w
    constructor
    · intro h; nomatch h
    · intro h; simpa using matches_eps_inv h
  | char c =>
    intro a w
    simp only [rderiv]
    by_cases hac : a = c
    · subst hac
      simp only [if_pos rfl]
      constructor
      · intro h; rw [matches_eps_inv h]; exact Matches.char a
      · intro h
        have := matches_char_inv h
        simp at this
        rw [this]; exact Matches.eps
    · rw [if_neg hac]
      constructor
      · intro h; nomatch h
      · intro h
        have := matches_char_inv h
        simp at this
        exact absurd this.1 hac
  | dot =>
    intro a w
    simp only [rderiv]
    by_cases han : a = '\n'
    · rw [if_pos han]
      constructor
      · intro h; nomatch h
      · intro h
        obtain ⟨c, hc, hcn⟩ := matches_dot_inv h
        simp at hc
        exact absurd (han ▸ hc.1.symm) hcn
    · rw [if_neg han]
      constructor
      · intro h; rw [matches_eps_inv h]; exact Matches.dot a han
      · intro h
        obtain ⟨c, hc, hcn⟩ := matches_dot_inv h
        simp at hc
        rw [hc.2]; exact Matches.eps
  | alt r₁ r₂ ih₁ ih₂ =>
    intro a w
    constructor
    · intro h
      rcases matches_alt_inv h with h | h
      · exact Matches.altL ((ih₁ a w).mp h)
      · exact Matches.altR ((ih₂ a w).mp h)
    · intro h
      rcases matches_alt_inv h with h | h
      · exact Matches.altL ((ih₁ a w).mpr h)
      · exact Matches.altR ((ih₂ a w).mpr h)
  | cat r₁ r₂ ih₁ ih₂ =>
    intro a w
    simp only [rderiv]
    constructor
    · intro h
      by_cases hn : nullable r₁
      · rw [if_pos hn] at h
        rcases matches_alt_inv h with h | h
        · obtain ⟨w₁, w₂, hw, h₁, h₂⟩ := matches_cat_inv h
          subst hw
          exact List.cons_append a w₁ w₂ ▸ Matches.cat ((ih₁ a w₁).mp h₁) h₂
        · have h₂ := (ih₂ a w).mp h
          have h₁ := (nullable_iff r₁).mp hn
          exact Matches.cat h₁ h₂
      · rw [if_neg hn] at h
        obtain ⟨w₁, w₂, hw, h₁, h₂⟩ := matches_cat_inv h
        subst hw
        exact List.cons_append a w₁ w₂ ▸ Matches.cat ((ih₁ a w₁).mp h₁) h₂
    · intro h
      obtain ⟨w₁, w₂, hw, h₁, h₂⟩ := matches_cat_inv h
      cases w₁ with
      | nil =>
        have hn : nullable r₁ = true := (nullable_iff r₁).mpr h₁
        rw [if_pos hn]
        simp only [List.nil_append] at hw
        subst hw
        exact Matches.altR ((ih₂ a w).mpr h₂)
      | cons b w₁' =>
        simp only [List.cons_append, List.cons.injEq] at hw
        obtain ⟨hb, hw'⟩ := hw
        subst hb
        subst hw'
        have hcat : Matches (Regex.cat (rderiv r₁ a) r₂) (w₁' ++ w₂) :=
          Matches.cat ((ih₁ a w₁').mpr h₁) h₂
        by_cases hn : nullable r₁
        · rw [if_pos hn]; exact Matches.altL hcat
        · rw [if_neg hn]; exact hcat
  | star r ih =>
    intro a w
    constructor
    · intro h
      obtain ⟨w₁, w₂, hw, h₁, h₂⟩ := matches_cat_inv h
      subst hw
      exact List.cons_append a w₁ w₂ ▸ Matches.starCons ((ih a w₁).mp h₁) h₂
    · intro h
      obtain ⟨w₁, w₂, hw, h₁, h₂⟩ := matches_star_cons h
      subst hw
      exact Matches.cat ((ih a w₁).mpr h₁) h₂

theorem matchPre_iff : ∀ (w : List Char) (r : Regex),
    matchPre r w = true ↔ ∃ u v, w = u ++ v ∧ Matches r u := by
  intro w
  induction w with
  | nil =>
    intro r
    simp only [matchPre]
    rw [nullable_iff]
    constructor
    · intro h; exact ⟨[], [], rfl, h⟩
    · rintro ⟨u, v, huv, hm⟩
      obtain ⟨hu, hv⟩ := List.append_eq_nil.mp huv.symm
      subst hu
      exact hm
  | cons a w ih =>
    intro r
    simp only [matchPre, Bool.or_eq_true]
    constructor
    · rintro (h | h)
      · exact ⟨[], a :: w, rfl, (nullable_iff r).mp h⟩
      · obtain ⟨u, v, huv, hm⟩ := (ih (rderiv r a)).mp h
        subst huv
        exact ⟨a :: u, v, rfl, (rderiv_matches r a u).mp hm⟩
    · rintro ⟨u, v, huv, hm⟩
      cases u with
      | nil =>
        exact Or.inl ((nullable_iff r).mpr hm)
      | cons b u' =>
        simp only [List.cons_append, List.cons.injEq] at huv
        obtain ⟨hb, hw⟩ := huv
        subst hb
        exact Or.inr ((ih (rderiv r a)).mpr ⟨u', v, hw, (rderiv_matches r a u').mpr hm⟩)

/-! ### Languages of the shapes the script emits -/

theorem matches_star_dot : ∀ (w : List Char),
    Matches (Regex.star Regex.dot) w ↔ ∀ c ∈ w, c ≠ '\n' := by
  intro w
  induction w with
  | nil =>
    constructor
    · intro _ c hc; simp at hc
    · intro _; exact Matches.starNil
  | cons a w ih =>
    constructor
    · intro h
      obtain ⟨w₁, w₂, hw, h₁, h₂⟩ := matches_star_cons h
      obtain ⟨c, hc, hcn⟩ := matches_dot_inv h₁
      simp only [List.cons.injEq] at hc
      obtain ⟨hac, hw₁⟩ := hc
      subst hac
      subst hw₁
      simp only [List.nil_append] at hw
      subst hw
      intro c hc
      rcases List.mem_cons.mp hc with h | h
      · subst h; exact hcn
      · exact ih.mp h₂ c h
    · intro h
      have hd : Matches Regex.dot [a] := Matches.dot a (h a (List.mem_cons_self a w))
      have hs : Matches (Regex.star Regex.dot) w :=
        ih.mpr (fun c hc => h c (List.mem_cons_of_mem a hc))
      exact Matches.starCons hd hs

/-- Concatenation of the literal characters of `ns` in front of `R`; the
shape a parsed escaped namestring contributes. -/
def litCat (ns : List Char) (R : Regex) : Regex :=
  ns.foldr (fun c r => Regex.cat (Regex.char c) r) R

theorem matches_litCat : ∀ (ns : List Char) (R : Regex) (w : List Char),
    Matches (litCat ns R) w ↔ ∃ v, w = ns ++ v ∧ Matches R v := by
  intro ns
  induction ns with
  | nil =>
    intro R w
    simp only [litCat, List.foldr_nil, List.nil_append]
    constructor
    · intro h; exact ⟨w, rfl, h⟩
    · rintro ⟨v, rfl, h⟩; exact h
  | cons c ns ih =>
    intro R w
    simp only [litCat, List.foldr_cons]
    constructor
    · intro h
      obtain ⟨w₁, w₂, hw, h₁, h₂⟩ := matches_cat_inv h
      rw [matches_char_inv h₁] at hw
      obtain ⟨v, hv, hR⟩ := (ih R w₂).mp h₂
      subst hv
      subst hw
      exact ⟨v, rfl, hR⟩
    · rintro ⟨v, rfl, h⟩
      have h₂ : Matches (litCat ns R) (ns ++ v) := (ih R (ns ++ v)).mpr ⟨v, rfl, h⟩
      have := Matches.cat (Matches.char c) h₂
      simpa using this

/-- The regex denoted by one emitted alternative `.*<escaped ns>.*`. -/
def segRe (ns : List Char) : Regex :=
  Regex.cat (Regex.star Regex.dot)
    (litCat ns (Regex.cat (Regex.star Regex.dot) Regex.eps))

theorem matches_star_dot_eps : ∀ (w : List Char),
    Matches (Regex.cat (Regex.star Regex.dot) Regex.eps) w ↔ ∀ c ∈ w, c ≠ '\n' := by
  intro w
  constructor
  · intro h
    obtain ⟨w₁, w₂, hw, h₁, h₂⟩ := matches_cat_inv h
    rw [matches_eps_inv h₂] at hw
    simp only [List.append_nil] at hw
    subst hw
    exact (matches_star_dot w).mp h₁
  · intro h
    have := Matches.cat ((matches_star_dot w).mpr h) Matches.eps
    simpa using this

theorem matches_segRe : ∀ (ns w : List Char),
    Matches (segRe ns) w ↔
      ∃ u v, w = u ++ ns ++ v ∧ (∀ c ∈ u, c ≠ '\n') ∧ (∀ c ∈ v, c ≠ '\n') := by
  intro ns w
  constructor
  · intro h
    obtain ⟨w₁, w₂, hw, h₁, h₂⟩ := matches_cat_inv h
    obtain ⟨v, hv, hR⟩ := (matches_litCat ns _ w₂).mp h₂
    subst hv
    subst hw
    exact ⟨w₁, v, by simp, (matches_star_dot w₁).mp h₁, (matches_star_dot_eps v).mp hR⟩
  · rintro ⟨u, v, rfl, hu, hv⟩
    have h₂ : Matches (litCat ns (Regex.cat (Regex.star Regex.dot) Regex.eps)) (ns ++ v) :=
      (matches_litCat ns _ (ns ++ v)).mpr ⟨v, rfl, (matches_star_dot_eps v).mpr hv⟩
    have := Matches.cat ((matches_star_dot u).mpr hu) h₂
    simpa using this

theorem matches_alt_foldl : ∀ (rs : List Regex) (r : Regex) (w : List Char),
    Matches (rs.foldl Regex.alt r) w ↔ Matches r w ∨ ∃ r' ∈ rs, Matches r' w := by
  intro rs
  induction rs with
  | nil => intro r w; simp
  | cons r₀ rs ih =>
    intro r w
    simp only [List.foldl_cons, ih, List.mem_cons]
    constructor
    · rintro (h | h)
      · rcases matches_alt_inv h with h | h
        · exact Or.inl h
        · exact Or.inr ⟨r₀, Or.inl rfl, h⟩
      · obtain ⟨r', hr', h⟩ := h
        exact Or.inr ⟨r', Or.inr hr', h⟩
    · rintro (h | ⟨r', hr', h⟩)
      · exact Or.inl (Matches.altL h)
      · rcases hr' with rfl | hr'
        · exact Or.inl (Matches.altR h)
        · exact Or.inr ⟨r', hr', h⟩

/-! ### Tokens and parse of the patterns the script builds -/

/-- Pattern string built for one namestring, `".*%s.*" % re.escape(ns)`. -/
def patStr (ns : String) : String := ".*" ++ reEscape ns ++ ".*"

/-- Token list of one emitted alternative. -/
def segToks (ns : List Char) : List Tok :=
  Tok.dot :: Tok.star :: (ns.map Tok.lit ++ [Tok.dot, Tok.star])

/-- Token list of an emitted alternation of one alternative per namestring. -/
def joinToks : List (List Char) → List Tok
  | [] => []
  | [ns] => segToks ns
  | ns :: rest => segToks ns ++ Tok.bar :: joinToks rest

theorem meta_sub_special : ∀ c ∈ reMetaUnsupported, c ∈ reSpecialChars := by decide

theorem tokenize_escChar (c : Char) (rest : List Char) :
    tokenize (reEscapeChar c ++ rest) = (tokenize rest).map (fun ts => Tok.lit c :: ts) := by
  by_cases h : c ∈ reSpecialChars
  · simp only [reEscapeChar, if_pos h, List.cons_append, List.nil_append]
    simp [tokenize]
  · have h1 : ¬ c = '\\' := fun hh => h (by rw [hh]; decide)
    have h2 : ¬ c = '.' := fun hh => h (by rw [hh]; decide)
    have h3 : ¬ c = '*' := fun hh => h (by rw [hh]; decide)
    have h4 : ¬ c = '|' := fun hh => h (by rw [hh]; decide)
    have h5 : c ∉ reMetaUnsupported := fun hh => h (meta_sub_special c hh)
    simp only [reEscapeChar, if_neg h, List.cons_append, List.nil_append]
    rw [tokenize.eq_def]
    simp [h1, h2, h3, h4, h5]

theorem tokenize_escList : ∀ (ns rest : List Char),
    tokenize (ns.foldr (fun c acc => reEscapeChar c ++ acc) [] ++ rest) =
      (tokenize rest).map (fun ts => ns.map Tok.lit ++ ts) := by
  intro ns
  induction ns with
  | nil =>
    intro rest
    simp only [List.foldr_nil, List.nil_append, List.map_nil]
    cases tokenize rest <;> rfl
  | cons c ns ih =>
    intro rest
    simp only [List.foldr_cons, List.append_assoc, List.map_cons]
    rw [tokenize_escChar, ih]
    cases tokenize rest <;> rfl

theorem reEscape_data (s : String) :
    (reEscape s).data = s.data.foldr (fun c acc => reEscapeChar c ++ acc) [] := rfl

theorem patStr_data (ns : String) :
    (patStr ns).data = '.' :: '*' :: ((reEscape ns).data ++ ['.', '*']) := by
  have h : (".*" : String).data = ['.', '*'] := rfl
  simp [patStr, String.data_append, h]

theorem tokenize_dot (rest : List Char) :
    tokenize ('.' :: rest) = (tokenize rest).map (fun ts => Tok.dot :: ts) := by
  rw [tokenize.eq_def]; simp

theorem tokenize_star (rest : List Char) :
    tokenize ('*' :: rest) = (tokenize rest).map (fun ts => Tok.star :: ts) := by
  rw [tokenize.eq_def]; simp

theorem tokenize_bar (rest : List Char) :
    tokenize ('|' :: rest) = (tokenize rest).map (fun ts => Tok.bar :: ts) := by
  rw [tokenize.eq_def]; simp

theorem tokenize_dotstar (rest : List Char) :
    tokenize ('.' :: '*' :: rest) = (tokenize rest).map (fun ts => Tok.dot :: Tok.star :: ts) := by
  rw [tokenize_dot, tokenize_star]
  cases tokenize rest <;> rfl

theorem tokenize_patStr (ns : String) (rest : List Char) :
    tokenize ((patStr ns).data ++ rest) =
      (tokenize rest).map (fun ts => segToks ns.data ++ ts) := by
  rw [patStr_data]
  simp only [List.cons_append, List.append_assoc, List.nil_append]
  rw [tokenize_dotstar]
  rw [reEscape_data, tokenize_escList, tokenize_dotstar]
  cases tokenize rest <;> simp [segToks]

theorem tokenize_join : ∀ (l : List String) (ns₀ : String),
    tokenize (joinBar ((ns₀ :: l).map patStr)).data =
      some (joinToks ((ns₀ :: l).map String.data)) := by
  intro l
  induction l with
  | nil =>
    intro ns₀
    simp only [List.map_cons, List.map_nil, joinBar, joinToks]
    rw [← List.append_nil (patStr ns₀).data, tokenize_patStr]
    simp [tokenize]
  | cons ns₁ l ih =>
    intro ns₀
    rw [show (ns₀ :: ns₁ :: l).map patStr = patStr ns₀ :: (ns₁ :: l).map patStr from rfl]
    rw [show joinBar (patStr ns₀ :: (ns₁ :: l).map patStr)
          = patStr ns₀ ++ "|" ++ joinBar ((ns₁ :: l).map patStr) from rfl]
    rw [show (patStr ns₀ ++ "|" ++ joinBar ((ns₁ :: l).map patStr)).data
          = (patStr ns₀).data ++ '|' :: (joinBar ((ns₁ :: l).map patStr)).data from by
      simp [String.data_append]]
    rw [tokenize_patStr, tokenize_bar, ih]
    rw [show (ns₀ :: ns₁ :: l).map String.data
          = ns₀.data :: (ns₁ :: l).map String.data from rfl]
    rw [show joinToks (ns₀.data :: (ns₁ :: l).map String.data)
          = segToks ns₀.data ++ Tok.bar :: joinToks ((ns₁ :: l).map String.data) from by
      cases l <;> rfl]
    rfl

theorem bar_not_mem_segToks (ns : List Char) : Tok.bar ∉ segToks ns := by
  intro h
  simp only [segToks, List.mem_cons, List.mem_append, List.mem_map] at h
  rcases h with h | h | ⟨⟨c, _, h⟩ | h⟩ <;> simp_all

theorem splitBar_barfree : ∀ (ts : List Tok), Tok.bar ∉ ts → splitBar ts = [ts] := by
  intro ts
  induction ts with
  | nil => intro _; rfl
  | cons t ts ih =>
    intro h
    have ht : ¬ t = Tok.bar := fun hh => h (hh ▸ List.mem_cons_self t ts)
    have hts : Tok.bar ∉ ts := fun hh => h (List.mem_cons_of_mem t hh)
    simp only [splitBar, if_neg ht, ih hts]

theorem splitBar_append_bar : ∀ (ts rest : List Tok), Tok.bar ∉ ts →
    splitBar (ts ++ Tok.bar :: rest) = ts :: splitBar rest := by
  intro ts
  induction ts with
  | nil => intro rest _; simp [splitBar]
  | cons t ts ih =>
    intro rest h
    have ht : ¬ t = Tok.bar := fun hh => h (hh ▸ List.mem_cons_self t ts)
    have hts : Tok.bar ∉ ts := fun hh => h (List.mem_cons_of_mem t hh)
    simp only [List.cons_append, splitBar, if_neg ht, List.append_eq, ih rest hts]

theorem splitBar_joinToks : ∀ (l : List (List Char)) (ns₀ : List Char),
    splitBar (joinToks (ns₀ :: l)) = (ns₀ :: l).map segToks := by
  intro l
  induction l with
  | nil =>
    intro ns₀
    simp [joinToks, splitBar_barfree _ (bar_not_mem_segToks ns₀)]
  | cons ns₁ l ih =>
    intro ns₀
    rw [show joinToks (ns₀ :: ns₁ :: l) = segToks ns₀ ++ Tok.bar :: joinToks (ns₁ :: l) from rfl]
    rw [splitBar_append_bar _ _ (bar_not_mem_segToks ns₀), ih]
    rfl

theorem parseAtoms_lits : ∀ (ns : List Char) (ts : List Tok) (acc : List Regex),
    parseAtoms (ns.map Tok.lit ++ ts) acc =
      parseAtoms ts (ns.reverse.map Regex.char ++ acc) := by
  intro ns
  induction ns with
  | nil => intro ts acc; simp
  | cons c ns ih =>
    intro ts acc
    simp only [List.map_cons, List.cons_append, parseAtoms, List.append_eq]
    rw [ih]
    simp [List.reverse_cons]

theorem parseSeg_segToks (ns : List Char) : parseSeg (segToks ns) = some (segRe ns) := by
  simp only [parseSeg, segToks]
  rw [show parseAtoms (Tok.dot :: Tok.star :: (ns.map Tok.lit ++ [Tok.dot, Tok.star]))
        ([] : List Regex)
      = parseAtoms (ns.map Tok.lit ++ [Tok.dot, Tok.star]) [Regex.star Regex.dot] from rfl]
  rw [parseAtoms_lits]
  rw [show parseAtoms [Tok.dot, Tok.star] (ns.reverse.map Regex.char ++ [Regex.star Regex.dot])
      = some (Regex.star Regex.dot ::
          (ns.reverse.map Regex.char ++ [Regex.star Regex.dot])) from rfl]
  have hrev : Regex.star Regex.dot :: (ns.reverse.map Regex.char ++ [Regex.star Regex.dot]) =
      (Regex.star Regex.dot :: (ns.map Regex.char ++ [Regex.star Regex.dot])).reverse := by
    simp
  simp only [Option.map_some', hrev, List.foldl_reverse, List.foldr_cons, List.foldr_append,
    List.foldr_map]
  rfl

theorem parseSegs_segToks : ∀ (l : List (List Char)),
    parseSegs (l.map segToks) = some (l.map segRe) := by
  intro l
  induction l with
  | nil => rfl
  | cons ns l ih => simp [parseSegs, parseSeg_segToks, ih]

theorem parseRe_join (l : List String) (ns₀ : String) :
    parseRe (joinBar ((ns₀ :: l).map patStr)).data =
      some ((l.map (fun s => segRe s.data)).foldl Regex.alt (segRe ns₀.data)) := by
  rw [parseRe.eq_def, tokenize_join]
  rw [show (ns₀ :: l).map String.data = ns₀.data :: l.map String.data from rfl]
  simp only [splitBar_joinToks]
  rw [parseSegs_segToks]
  simp [List.map_map, Function.comp_def]

/-! ### The pattern `build_ignored_names_re` returns, and its matching -/

theorem joinBar_if (acc : List String) :
    (if acc = [] then "" else joinBar acc) = joinBar acc := by
  cases acc <;> rfl

theorem build_cons : ∀ (l acc : List String) (h : l ≠ []),
    build_ignored_names_re (some l) acc =
      build_ignored_names_re (some l.dropLast) (acc ++ [patStr (l.getLast h)]) := by
  intro l acc h
  cases l with
  | nil => exact absurd rfl h
  | cons n₀ ns => simp [build_ignored_names_re, patStr]

theorem build_some : ∀ (l acc : List String),
    build_ignored_names_re (some l) acc =
      (joinBar (acc ++ l.reverse.map patStr), some []) := by
  intro l
  induction l using List.reverseRecOn with
  | nil =>
    intro acc
    simp [build_ignored_names_re, joinBar_if]
  | append_singleton ys y ih =>
    intro acc
    rw [build_cons (ys ++ [y]) acc (by simp), List.dropLast_concat, List.getLast_concat, ih]
    rw [List.reverse_concat]
    simp [List.append_assoc]

theorem re_match_built (l : List String) (hl : l ≠ []) (nm : String) :
    re_match (build_ignored_names_re (some l) []).1 nm = true ↔
      ∃ ns ∈ l, ∃ u v, nm.data = u ++ ns.data ++ v ∧ ∀ c ∈ u, c ≠ '\n' := by
  rw [build_some]
  simp only [List.nil_append]
  obtain ⟨ns₀, rest, hrev⟩ : ∃ a r, l.reverse = a :: r := by
    cases hr : l.reverse with
    | nil => exact absurd (List.reverse_eq_nil_iff.mp hr) hl
    | cons a r => exact ⟨a, r, rfl⟩
  rw [hrev]
  simp only [re_match]
  rw [parseRe_join]
  rw [matchPre_iff]
  constructor
  · rintro ⟨u', v', huv, hm⟩
    rcases (matches_alt_foldl _ _ _).mp hm with hm | ⟨r', hr', hm⟩
    · obtain ⟨u, v, hu, hnlu, hnlv⟩ := (matches_segRe _ _).mp hm
      refine ⟨ns₀, ?_, u, v ++ v', ?_, hnlu⟩
      · exact List.mem_reverse.mp (hrev ▸ List.mem_cons_self ns₀ rest)
      · rw [huv, hu]; simp [List.append_assoc]
    · obtain ⟨s, hs, hr'⟩ := List.mem_map.mp hr'
      subst hr'
      obtain ⟨u, v, hu, hnlu, hnlv⟩ := (matches_segRe _ _).mp hm
      refine ⟨s, ?_, u, v ++ v', ?_, hnlu⟩
      · exact List.mem_reverse.mp (hrev ▸ List.mem_cons_of_mem ns₀ hs)
      · rw [huv, hu]; simp [List.append_assoc]
  · rintro ⟨ns, hns, u, v, hnm, hnlu⟩
    have hmem : ns ∈ ns₀ :: rest := hrev ▸ List.mem_reverse.mpr hns
    have hseg : Matches (segRe ns.data) (u ++ ns.data) :=
      (matches_segRe _ _).mpr ⟨u, [], by simp, hnlu, by simp⟩
    refine ⟨u ++ ns.data, v, by rw [hnm], ?_⟩
    rcases List.mem_cons.mp hmem with h | h
    · exact (matches_alt_foldl _ _ _).mpr (Or.inl (h ▸ hseg))
    · exact (matches_alt_foldl _ _ _).mpr
        (Or.inr ⟨segRe ns.data, List.mem_map_of_mem _ h, hseg⟩)

/-! ### Dictionary and scan lemmas for `find_sequence_names` -/

theorem dlookup_dset {α : Type} : ∀ (d : List (String × α)) (k k' : String) (v : α),
    dlookup (dset d k v) k' = if k = k' then some v else dlookup d k' := by
  intro d
  induction d with
  | nil => intro k k' v; simp [dset, dlookup]
  | cons p d ih =>
    intro k k' v
    obtain ⟨k₀, v₀⟩ := p
    by_cases h : k₀ = k
    · subst h
      simp only [dset, if_pos rfl]
      by_cases hk : k₀ = k'
      · simp [dlookup, hk]
      · simp [dlookup, hk]
    · simp only [dset, if_neg h]
      by_cases hk : k₀ = k'
      · subst hk
        have hne : ¬ k = k₀ := fun hh => h hh.symm
        simp [dlookup, hne]
      · simp [dlookup, hk, ih]

theorem initTypes_lookup_aux : ∀ (st : List String) (d : List (String × List Sequence))
    (t : String),
    dlookup (st.foldl (fun d t => dset d t []) d) t =
      if t ∈ st then some [] else dlookup d t := by
  intro st
  induction st with
  | nil => intro d t; simp
  | cons u st ih =>
    intro d t
    simp only [List.foldl_cons]
    rw [ih, dlookup_dset]
    by_cases h : t ∈ st <;> by_cases hu : u = t <;>
      simp [h, hu, List.mem_cons, eq_comm]

theorem initTypes_lookup (st : List String) (t : String) :
    dlookup (initTypes st) t = if t ∈ st then some [] else none := by
  rw [initTypes, initTypes_lookup_aux]
  rfl

theorem scanStep_cov (st : List String) (rd : List (String × Option String))
    (d : List (String × List Sequence)) (s : Sequence)
    (hcov : ∀ u ∈ st, (dlookup d u).isSome) :
    ∀ u ∈ st, (dlookup (scanStep st rd d s) u).isSome := by
  intro u hu
  simp only [scanStep]
  split_ifs with h
  · rw [dlookup_dset]
    by_cases he : s.type = u
    · simp [he]
    · simp [he, hcov u hu]
  · exact hcov u hu

theorem scan_lookup_notMem : ∀ (seqs : List Sequence) (st : List String)
    (rd : List (String × Option String)) (d : List (String × List Sequence)) (t : String),
    t ∉ st →
    dlookup (seqs.foldl (scanStep st rd) d) t = dlookup d t := by
  intro seqs
  induction seqs with
  | nil => intro st rd d t _; rfl
  | cons s seqs ih =>
    intro st rd d t h
    simp only [List.foldl_cons]
    rw [ih st rd _ t h]
    simp only [scanStep]
    split_ifs with hcond
    · rw [dlookup_dset]
      have hne : ¬ s.type = t := fun he => h (he ▸ hcond.1)
      rw [if_neg hne]
    · rfl

theorem scan_lookup_mem : ∀ (seqs : List Sequence) (st : List String)
    (rd : List (String × Option String)) (d : List (String × List Sequence))
    (t : String) (l₀ : List Sequence),
    t ∈ st → (∀ u ∈ st, (dlookup d u).isSome) →
    dlookup d t = some l₀ →
    dlookup (seqs.foldl (scanStep st rd) d) t =
      some (l₀ ++ seqs.filter
        (fun s => decide (s.type = t) && ignore_allows rd s.type s.name)) := by
  intro seqs
  induction seqs with
  | nil => intro st rd d t l₀ _ _ hl₀; simpa using hl₀
  | cons s seqs ih =>
    intro st rd d t l₀ ht hcov hl₀
    simp only [List.foldl_cons]
    by_cases hcond : s.type ∈ st ∧ ignore_allows rd s.type s.name = true
    · by_cases he : s.type = t
      · have hold : (dlookup d s.type).getD [] = l₀ := by rw [he, hl₀]; rfl
        have hstep : dlookup (scanStep st rd d s) t = some (l₀ ++ [s]) := by
          simp only [scanStep, if_pos hcond]
          rw [dlookup_dset, if_pos he, hold]
        rw [ih st rd _ t (l₀ ++ [s]) ht (scanStep_cov st rd d s hcov) hstep]
        have hpred : (decide (s.type = t) && ignore_allows rd s.type s.name) = true := by
          have h2 := hcond.2
          rw [he] at h2
          simp [he, h2]
        rw [List.filter_cons]
        simp only [hpred, if_pos rfl, if_true]
        simp [List.append_assoc]
      · have hstep : dlookup (scanStep st rd d s) t = some l₀ := by
          simp only [scanStep, if_pos hcond]
          rw [dlookup_dset, if_neg he, hl₀]
        rw [ih st rd _ t l₀ ht (scanStep_cov st rd d s hcov) hstep]
        have hpred : (decide (s.type = t) && ignore_allows rd s.type s.name) = false := by
          simp [he]
        rw [List.filter_cons]
        simp [hpred]
    · have hstep : scanStep st rd d s = d := by simp only [scanStep, if_neg hcond]
      rw [hstep, ih st rd d t l₀ ht hcov hl₀]
      have hpred : (decide (s.type = t) && ignore_allows rd s.type s.name) = false := by
        by_cases he : s.type = t
        · cases hb : ignore_allows rd s.type s.name with
          | false => simp [hb]
          | true => exact absurd hb (fun ha => hcond ⟨he ▸ ht, ha⟩)
        · simp [he]
      rw [List.filter_cons]
      simp [hpred]

theorem scan_keys : ∀ (seqs : List Sequence) (st : List String)
    (rd : List (String × Option String)) (d : List (String × List Sequence)) (t : String),
    (∀ u ∈ st, (dlookup d u).isSome) →
    (dlookup (seqs.foldl (scanStep st rd) d) t).isSome = (dlookup d t).isSome := by
  intro seqs
  induction seqs with
  | nil => intro st rd d t _; rfl
  | cons s seqs ih =>
    intro st rd d t hcov
    simp only [List.foldl_cons]
    rw [ih st rd _ t (scanStep_cov st rd d s hcov)]
    simp only [scanStep]
    split_ifs with hcond
    · rw [dlookup_dset]
      by_cases he : s.type = t
      · simp [he, (he ▸ hcov s.type hcond.1 : (dlookup d t).isSome)]
      · simp [he]
    · rfl

/-! ### Wrappers for `find_sequence_names` -/

theorem initTypes_cov (st : List String) :
    ∀ u ∈ st, (dlookup (initTypes st) u).isSome := by
  intro u hu
  rw [initTypes_lookup]
  simp [hu]

theorem find_some_eq (seqs : List Sequence) (st : List String)
    (rd : List (String × Option String)) :
    find_sequence_names (some seqs) st rd =
      ([], some (seqs.foldl (scanStep st rd) (initTypes st))) := rfl

theorem find_lookup_mem (seqs : List Sequence) (st : List String)
    (rd : List (String × Option String)) (t : String) (ht : t ∈ st) :
    dlookup (seqs.foldl (scanStep st rd) (initTypes st)) t =
      some (seqs.filter (fun s => decide (s.type = t) && ignore_allows rd s.type s.name)) := by
  have h := scan_lookup_mem seqs st rd (initTypes st) t [] ht (initTypes_cov st)
    (by rw [initTypes_lookup]; simp [ht])
  simpa using h

theorem find_lookup_notMem (seqs : List Sequence) (st : List String)
    (rd : List (String × Option String)) (t : String) (ht : t ∉ st) :
    dlookup (seqs.foldl (scanStep st rd) (initTypes st)) t = none := by
  rw [scan_lookup_notMem seqs st rd _ t ht, initTypes_lookup]
  simp [ht]

theorem find_keys (seqs : List Sequence) (st : List String)
    (rd : List (String × Option String)) (t : String) :
    (∃ l, dlookup (seqs.foldl (scanStep st rd) (initTypes st)) t = some l) ↔ t ∈ st := by
  constructor
  · rintro ⟨l, hl⟩
    by_contra ht
    rw [find_lookup_notMem seqs st rd t ht] at hl
    cases hl
  · intro ht
    exact ⟨_, find_lookup_mem seqs st rd t ht⟩

theorem find_mem_type (seqs : List Sequence) (st : List String)
    (rd : List (String × Option String)) (t : String) (l : List Sequence) (s : Sequence)
    (hl : dlookup (seqs.foldl (scanStep st rd) (initTypes st)) t = some l)
    (hs : s ∈ l) :
    s.type = t ∧ s.type ∈ st ∧ s ∈ seqs ∧ ignore_allows rd s.type s.name = true := by
  have ht : t ∈ st := (find_keys seqs st rd t).mp ⟨l, hl⟩
  rw [find_lookup_mem seqs st rd t ht] at hl
  obtain rfl := Option.some.inj hl
  have := List.mem_filter.mp hs
  obtain ⟨hmem, hpred⟩ := this
  simp only [Bool.and_eq_true, decide_eq_true_eq] at hpred
  exact ⟨hpred.1, hpred.1 ▸ ht, hmem, hpred.2⟩

/-! ### Lemmas about the printing pass -/

theorem mem_setAdd (l : List String) (x y : String) :
    y ∈ setAdd l x ↔ y ∈ l ∨ y = x := by
  simp only [setAdd]
  split_ifs with h
  · constructor
    · intro hy; exact Or.inl hy
    · rintro (hy | rfl)
      · exact hy
      · exact h
  · simp [List.mem_append]

theorem setAdd_nodup (l : List String) (x : String) (h : l.Nodup) : (setAdd l x).Nodup := by
  simp only [setAdd]
  split_ifs with hx
  · exact h
  · simp [List.nodup_append, h, hx]

theorem found_files_go_mem : ∀ (seqs : List Sequence) (fp : Bool) (t : String)
    (fl : List String) (p : String),
    p ∈ seqs.foldl (fun fl s =>
      match pathOf fp t s with
      | some q => setAdd fl q
      | none => fl) fl ↔ p ∈ fl ∨ ∃ s ∈ seqs, pathOf fp t s = some p := by
  intro seqs
  induction seqs with
  | nil => intro fp t fl p; simp
  | cons s seqs ih =>
    intro fp t fl p
    simp only [List.foldl_cons]
    rw [ih]
    cases hq : pathOf fp t s with
    | none =>
      constructor
      · rintro (hp | ⟨s', hs', hps'⟩)
        · exact Or.inl hp
        · exact Or.inr ⟨s', List.mem_cons_of_mem s hs', hps'⟩
      · rintro (hp | ⟨s', hs', hps'⟩)
        · exact Or.inl hp
        · rcases List.mem_cons.mp hs' with rfl | hs'
          · rw [hq] at hps'; cases hps'
          · exact Or.inr ⟨s', hs', hps'⟩
    | some q =>
      rw [mem_setAdd]
      constructor
      · rintro ((hp | rfl) | ⟨s', hs', hps'⟩)
        · exact Or.inl hp
        · exact Or.inr ⟨s, List.mem_cons_self s seqs, hq⟩
        · exact Or.inr ⟨s', List.mem_cons_of_mem s hs', hps'⟩
      · rintro (hp | ⟨s', hs', hps'⟩)
        · exact Or.inl (Or.inl hp)
        · rcases List.mem_cons.mp hs' with rfl | hs'
          · rw [hq] at hps'
            exact Or.inl (Or.inr (Option.some.inj hps').symm)
          · exact Or.inr ⟨s', hs', hps'⟩

theorem found_files_go_nodup : ∀ (seqs : List Sequence) (fp : Bool) (t : String)
    (fl : List String), fl.Nodup →
    (seqs.foldl (fun fl s =>
      match pathOf fp t s with
      | some q => setAdd fl q
      | none => fl) fl).Nodup := by
  intro seqs
  induction seqs with
  | nil => intro fp t fl h; exact h
  | cons s seqs ih =>
    intro fp t fl h
    simp only [List.foldl_cons]
    cases hq : pathOf fp t s with
    | none => exact ih fp t fl h
    | some q => exact ih fp t _ (setAdd_nodup fl q h)

theorem mem_found_files (fp : Bool) (t : String) (seqs : List Sequence) (p : String) :
    p ∈ found_files fp t seqs ↔ ∃ s ∈ seqs, pathOf fp t s = some p := by
  rw [found_files, found_files_go_mem]
  simp

theorem found_files_nodup (fp : Bool) (t : String) (seqs : List Sequence) :
    (found_files fp t seqs).Nodup :=
  found_files_go_nodup seqs fp t [] List.nodup_nil

theorem foldl_out_append {β : Type} : ∀ (l : List β) (g : β → List String) (out : List String),
    l.foldl (fun out p => out ++ g p) out = out ++ l.flatMap g := by
  intro l
  induction l with
  | nil => intro g out; simp
  | cons p l ih =>
    intro g out
    simp only [List.foldl_cons, List.flatMap_cons]
    rw [ih]
    simp [List.append_assoc]

theorem foldl_lines_append : ∀ (seqs : List Sequence) (o : List String),
    seqs.foldl (fun o s => o ++ [s.type ++ " sequence: " ++ s.name]) o =
      o ++ seqs.map (fun s => s.type ++ " sequence: " ++ s.name) := by
  intro seqs
  induction seqs with
  | nil => intro o; simp
  | cons s seqs ih =>
    intro o
    simp only [List.foldl_cons, List.map_cons]
    rw [ih]
    simp [List.append_assoc]

theorem foldl_nested_out : ∀ (sbt : List (String × List Sequence)) (out : List String),
    sbt.foldl (fun out p =>
        p.2.foldl (fun o s => o ++ [s.type ++ " sequence: " ++ s.name]) out) out =
      out ++ sbt.flatMap (fun p => p.2.map (fun s => s.type ++ " sequence: " ++ s.name)) := by
  intro sbt
  induction sbt with
  | nil => intro out; simp
  | cons p sbt ih =>
    intro out
    simp only [List.foldl_cons, List.flatMap_cons]
    rw [foldl_lines_append, ih]
    simp [List.append_assoc]

theorem print_dup_out (sbt : List (String × List Sequence)) (fp : Bool) :
    (print_sequence_names sbt true fp).1 =
      headerLine sbt true :: sbt.flatMap (fun p => printBlock fp p.1 p.2) := by
  simp only [print_sequence_names, if_true]
  rw [foldl_out_append]
  rfl

theorem print_nodup_out (sbt : List (String × List Sequence)) (fp : Bool) :
    (print_sequence_names sbt false fp).1 =
      headerLine sbt false ::
        sbt.flatMap (fun p => p.2.map (fun s => s.type ++ " sequence: " ++ s.name)) := by
  simp only [print_sequence_names, Bool.false_eq_true, if_false]
  rw [foldl_nested_out]
  rfl

/-! ### The regex-building loop of `run_strip_finder` -/

theorem buildLoop_cons_names (t : String) (ts : List String) (d : List (String × IgnVal))
    (l : List String) (hd : dlookup d t = some (IgnVal.names l)) :
    buildLoop (t :: ts) d =
      buildLoop ts (dset d t (IgnVal.pat (build_ignored_names_re (some l) []).1)) := by
  simp only [buildLoop, hd]

theorem buildLoop_cons_none (t : String) (ts : List String) (d : List (String × IgnVal))
    (hd : dlookup d t = none) :
    buildLoop (t :: ts) d = buildLoop ts (dset d t IgnVal.null) := by
  simp only [buildLoop, hd]

theorem buildLoop_spec : ∀ (st : List String) (d : List (String × IgnVal)),
    st.Nodup →
    (∀ t ∈ st, dlookup d t = none ∨ ∃ l, dlookup d t = some (IgnVal.names l)) →
    ∃ d', buildLoop st d = some d' ∧
      (∀ t ∈ st,
        (∀ l, dlookup d t = some (IgnVal.names l) →
          dlookup d' t = some (IgnVal.pat (build_ignored_names_re (some l) []).1)) ∧
        (dlookup d t = none → dlookup d' t = some IgnVal.null)) ∧
      (∀ k, k ∉ st → dlookup d' k = dlookup d k) := by
  intro st
  induction st with
  | nil =>
    intro d _ _
    exact ⟨d, rfl, by simp, fun k _ => rfl⟩
  | cons t ts ih =>
    intro d hnd hvals
    have hnd' : ts.Nodup := (List.nodup_cons.mp hnd).2
    have htts : t ∉ ts := (List.nodup_cons.mp hnd).1
    have step : ∀ (v : IgnVal),
        (∀ u ∈ ts, dlookup (dset d t v) u = none ∨
          ∃ l, dlookup (dset d t v) u = some (IgnVal.names l)) := by
      intro v u hu
      have hut : ¬ t = u := fun he => htts (he ▸ hu)
      rw [dlookup_dset, if_neg hut]
      exact hvals u (List.mem_cons_of_mem t hu)
    rcases hvals t (List.mem_cons_self t ts) with hd | ⟨l, hd⟩
    · obtain ⟨d', hbl, hprops, hother⟩ := ih (dset d t IgnVal.null) hnd' (step IgnVal.null)
      refine ⟨d', ?_, ?_, ?_⟩
      · rw [buildLoop_cons_none t ts d hd]; exact hbl
      · intro u hu
        rcases List.mem_cons.mp hu with rfl | hu
        · refine ⟨fun l hl => ?_, fun _ => ?_⟩
          · rw [hd] at hl; cases hl
          · rw [hother u htts, dlookup_dset, if_pos rfl]
        · have hut : ¬ t = u := fun he => htts (he ▸ hu)
          refine ⟨fun l hl => ?_, fun hl => ?_⟩
          · exact (hprops u hu).1 l (by rw [dlookup_dset, if_neg hut]; exact hl)
          · exact (hprops u hu).2 (by rw [dlookup_dset, if_neg hut]; exact hl)
      · intro k hk
        have hkt : ¬ t = k := fun he => hk (he ▸ List.mem_cons_self t ts)
        have hkts : k ∉ ts := fun hh => hk (List.mem_cons_of_mem t hh)
        rw [hother k hkts, dlookup_dset, if_neg hkt]
    · obtain ⟨d', hbl, hprops, hother⟩ :=
        ih (dset d t (IgnVal.pat (build_ignored_names_re (some l) []).1)) hnd'
          (step (IgnVal.pat (build_ignored_names_re (some l) []).1))
      refine ⟨d', ?_, ?_, ?_⟩
      · rw [buildLoop_cons_names t ts d l hd]; exact hbl
      · intro u hu
        rcases List.mem_cons.mp hu with rfl | hu
        · refine ⟨fun l' hl' => ?_, fun hl' => ?_⟩
          · rw [hd] at hl'
            obtain rfl : l = l' := by
              cases Option.some.inj hl'; rfl
            rw [hother u htts, dlookup_dset, if_pos rfl]
          · rw [hd] at hl'; cases hl'
        · have hut : ¬ t = u := fun he => htts (he ▸ hu)
          refine ⟨fun l' hl' => ?_, fun hl' => ?_⟩
          · exact (hprops u hu).1 l' (by rw [dlookup_dset, if_neg hut]; exact hl')
          · exact (hprops u hu).2 (by rw [dlookup_dset, if_neg hut]; exact hl')
      · intro k hk
        have hkt : ¬ t = k := fun he => hk (he ▸ List.mem_cons_self t ts)
        have hkts : k ∉ ts := fun hh => hk (List.mem_cons_of_mem t hh)
        rw [hother k hkts, dlookup_dset, if_neg hkt]

/-! ### Unfolding `run_strip_finder` -/

theorem run_eq_pipeline (st : List String) (ign : List (String × IgnVal))
    (dup : Bool) (seqr : Option (List Sequence)) (d : List (String × IgnVal))
    (hst : st ≠ []) (hbl : buildLoop st ign = some d) :
    run_strip_finder st ign dup seqr =
      match find_sequence_names seqr st (toRd d) with
      | (out, none) => (out, none)
      | (out, some fs) =>
        (out ++ (print_sequence_names fs dup true).1, some d) := by
  simp only [run_strip_finder, if_neg hst, hbl]

/-! ### Auxiliary facts for the claims -/

theorem joinBar_pats_ne_empty (ns₀ : String) (rest : List String) :
    joinBar (patStr ns₀ :: rest.map patStr) ≠ "" := by
  intro h
  have hd := congrArg String.data h
  cases rest with
  | nil =>
    simp only [List.map_nil] at hd
    rw [show joinBar [patStr ns₀] = patStr ns₀ from rfl, patStr_data] at hd
    simp at hd
  | cons p rest =>
    simp only [List.map_cons] at hd
    rw [show joinBar (patStr ns₀ :: patStr p :: rest.map patStr)
          = patStr ns₀ ++ "|" ++ joinBar (patStr p :: rest.map patStr) from rfl] at hd
    rw [String.data_append, String.data_append, patStr_data] at hd
    simp at hd

theorem built_pattern_ne_empty (l : List String) (hl : l ≠ []) :
    (build_ignored_names_re (some l) []).1 ≠ "" := by
  rw [build_some]
  simp only [List.nil_append]
  obtain ⟨ns₀, rest, hrev⟩ : ∃ a r, l.reverse = a :: r := by
    cases hr : l.reverse with
    | nil => exact absurd (List.reverse_eq_nil_iff.mp hr) hl
    | cons a r => exact ⟨a, r, rfl⟩
  rw [hrev]
  exact joinBar_pats_ne_empty ns₀ rest

theorem ignore_allows_built (rd : List (String × Option String)) (ty nm p : String)
    (hrd : dlookup rd ty = some (some p)) (hp : p ≠ "") :
    ignore_allows rd ty nm = !(re_match p nm) := by
  simp [ignore_allows, hrd, hp]

/-- SOUND strip used in concrete witnesses: its name contains `"audio-"` with
no newline. -/
def wStrip : Sequence :=
  { name := "myaudio-1", type := "SOUND", sound_filepath := "//sounds/a.wav",
    sound_name := "a.wav", directory := "", elements := [], filepath := "" }

/-- IMAGE strip used in concrete witnesses: two of these differing only in the
duplication suffix of their names share the same underlying file. -/
def imgStrip (nm : String) : Sequence :=
  { name := nm, type := "IMAGE", sound_filepath := "", sound_name := "",
    directory := "//img/", elements := ["i.png"], filepath := "" }

/-- SOUND strip whose name contains a newline before the letter `b`. -/
def nlStrip : Sequence :=
  { name := "a\nb", type := "SOUND", sound_filepath := "//s.wav",
    sound_name := "s.wav", directory := "", elements := [], filepath := "" }

/-! ### Claim theorems -/

/-- C4: for every finite list of namestrings, `build_ignored_names_re`
terminates and returns the `"|"`-join of one alternative `.*E.*` per
namestring, where `E` is the regex-escaped namestring, with the alternatives
in reverse input order because each recursive call pops the last element; for
`None` or an empty namestrings list with an empty accumulator it returns the
empty string. -/
theorem C4_build_reversed_join (l : List String) :
    (build_ignored_names_re (some l) []).1 =
      joinBar (l.reverse.map (fun ns => ".*" ++ reEscape ns ++ ".*")) ∧
    (build_ignored_names_re none []).1 = "" ∧
    (build_ignored_names_re (some []) []).1 = "" := by
    refine ⟨?_, by simp [build_ignored_names_re], by simp [build_ignored_names_re]⟩
    rw [build_some]
    simp only [List.nil_append]
    rfl

/-- C1 (counterexample): the name `"a\nb"` of a requested SOUND strip
contains the ignored namestring `"b"` as a literal substring, yet the strip
is not excluded: Python's `.` does not match a newline, so `re.match` on the
built pattern `.*b.*` fails and `find_sequence_names` keeps the strip. -/
theorem C1_counterexample :
    (∃ u v, ("a\nb" : String).data = u ++ ("b" : String).data ++ v) ∧
    re_match (build_ignored_names_re (some ["b"]) []).1 "a\nb" = false ∧
    (find_sequence_names (some [nlStrip]) ["SOUND"]
        [("SOUND", some (build_ignored_names_re (some ["b"]) []).1)]).2 =
      some [("SOUND", [nlStrip])] := by
    have hb : (build_ignored_names_re (some ["b"]) []).1 = ".*b.*" := by
      rw [build_some]; rfl
    refine ⟨⟨['a', '\n'], [], rfl⟩, ?_, ?_⟩
    · rw [hb]; rfl
    · rw [hb]; rfl

/-- C1 (amended): a requested-type strip whose type's regex was built from a
non-empty ignore list is excluded from the result iff its name contains one
of the ignored namestrings at a position preceded only by non-newline
characters (escaped metacharacters match literally; for newline-free names
this is exactly literal-substring containment, but the `.*` prefix of an
alternative cannot cross a newline); a requested-type strip whose type has no
dictionary entry, a `None` entry, or the empty pattern (which
`build_ignored_names_re` returns for an empty ignore list) is never
excluded. -/
theorem C1_amended (seqs : List Sequence) (st : List String)
    (rd : List (String × Option String)) (s : Sequence)
    (lst : List Sequence)
    (hs : s ∈ seqs) (ht : s.type ∈ st)
    (hlst : dlookup (seqs.foldl (scanStep st rd) (initTypes st)) s.type = some lst) :
    (∀ l, l ≠ [] →
      dlookup rd s.type = some (some (build_ignored_names_re (some l) []).1) →
      (s ∉ lst ↔ ∃ ns ∈ l, ∃ u v, s.name.data = u ++ ns.data ++ v ∧ ∀ c ∈ u, c ≠ '\n')) ∧
    ((dlookup rd s.type = none ∨ dlookup rd s.type = some none ∨
        dlookup rd s.type = some (some "")) → s ∈ lst) := by
    rw [find_lookup_mem seqs st rd s.type ht] at hlst
    cases Option.some.inj hlst
    have hmem : s ∈ seqs.filter
        (fun x => decide (x.type = s.type) && ignore_allows rd x.type x.name) ↔
        ignore_allows rd s.type s.name = true := by
      rw [List.mem_filter]
      simp [hs]
    constructor
    · intro l hl hrd
      have hpne := built_pattern_ne_empty l hl
      have hia := ignore_allows_built rd s.type s.name _ hrd hpne
      have hb := re_match_built l hl s.name
      constructor
      · intro hnot
        apply hb.mp
        by_contra hf
        have hre := Bool.eq_false_iff.mpr hf
        exact hnot (hmem.mpr (by rw [hia, hre]; rfl))
      · intro hex hmem'
        have hre := hb.mpr hex
        have hcontra := hmem.mp hmem'
        rw [hia, hre] at hcontra
        simp at hcontra
    · rintro (h | h | h) <;> exact hmem.mpr (by simp [ignore_allows, h])

/-- C1 (witness): for a SOUND strip named `"myaudio-1"` with ignore list
`["audio-"]`, the amended characterization instantiates: the strip is
excluded (the result set for SOUND is empty) iff `"audio-"` occurs in the
name preceded only by non-newline characters. -/
theorem C1_amended_witness :
    wStrip ∉ ([] : List Sequence) ↔ ∃ ns ∈ (["audio-"] : List String), ∃ u v,
      wStrip.name.data = u ++ ns.data ++ v ∧ ∀ c ∈ u, c ≠ '\n' := by
    have hb : (build_ignored_names_re (some ["audio-"]) []).1 = ".*audio\\-.*" := by
      rw [build_some]; rfl
    exact (C1_amended [wStrip] ["SOUND"]
      [("SOUND", some (build_ignored_names_re (some ["audio-"]) []).1)] wStrip []
      (by simp) (by decide) (by rw [hb]; rfl)).1 ["audio-"] (by decide) rfl

/-- C2: with a non-`None` sequencer, `find_sequence_names` returns a
dictionary in which every requested type's entry collects exactly the strips
of the scanned collection whose type equals that type and which pass the
type's ignore test; a missing, `None` or empty-string regex admits every
name; and every stored strip sits under the key equal to its own (requested)
type, so strips of unrequested types appear nowhere. -/
theorem C2_find_filters (seqs : List Sequence) (st : List String)
    (rd : List (String × Option String)) (t : String) (ht : t ∈ st) :
    ∃ fs, (find_sequence_names (some seqs) st rd).2 = some fs ∧
      dlookup fs t = some (seqs.filter
        (fun s => decide (s.type = t) && ignore_allows rd s.type s.name)) ∧
      (∀ u l s, dlookup fs u = some l → s ∈ l → s.type = u ∧ s.type ∈ st) ∧
      ((dlookup rd t = none ∨ dlookup rd t = some none ∨
          dlookup rd t = some (some "")) →
        ∀ nm, ignore_allows rd t nm = true) := by
    refine ⟨_, rfl, find_lookup_mem seqs st rd t ht, ?_, ?_⟩
    · intro u l s hl hsm
      have h := find_mem_type seqs st rd u l s hl hsm
      exact ⟨h.1, h.2.1⟩
    · rintro (h | h | h) nm <;> simp [ignore_allows, h]

/-- C2 (witness): instantiation at one SOUND strip, requested types
`["SOUND"]` and an empty ignore dictionary. -/
theorem C2_witness :
    ∃ fs, (find_sequence_names (some [wStrip]) ["SOUND"]
        ([] : List (String × Option String))).2 = some fs ∧
      dlookup fs "SOUND" = some (([wStrip] : List Sequence).filter
        (fun s => decide (s.type = "SOUND") && ignore_allows [] s.type s.name)) ∧
      (∀ u l s, dlookup fs u = some l → s ∈ l → s.type = u ∧ s.type ∈ ["SOUND"]) ∧
      ((dlookup ([] : List (String × Option String)) "SOUND" = none ∨
          dlookup ([] : List (String × Option String)) "SOUND" = some none ∨
          dlookup ([] : List (String × Option String)) "SOUND" = some (some "")) →
        ∀ nm, ignore_allows [] "SOUND" nm = true) :=
  C2_find_filters [wStrip] ["SOUND"] [] "SOUND" (by decide)

/-- C8: whenever `find_sequence_names` returns a dictionary, a type has an
entry (possibly an empty one) iff it was requested, and every stored strip
appears only under the key equal to its own type. -/
theorem C8_keys (seqs : List Sequence) (st : List String)
    (rd : List (String × Option String)) (fs : List (String × List Sequence))
    (hfs : (find_sequence_names (some seqs) st rd).2 = some fs) :
    (∀ t, (∃ l, dlookup fs t = some l) ↔ t ∈ st) ∧
    (∀ t l s, dlookup fs t = some l → s ∈ l → s.type = t) := by
    rw [find_some_eq] at hfs
    cases Option.some.inj hfs
    refine ⟨fun t => find_keys seqs st rd t, fun t l s hl hsm => ?_⟩
    exact (find_mem_type seqs st rd t l s hl hsm).1

/-- C8 (witness): instantiation at one SOUND strip and an empty ignore
dictionary; the returned dictionary is `[("SOUND", [wStrip])]`. -/
theorem C8_witness :
    (∀ t, (∃ l, dlookup [("SOUND", [wStrip])] t = some l) ↔ t ∈ (["SOUND"] : List String)) ∧
    (∀ t l s, dlookup [("SOUND", [wStrip])] t = some l → s ∈ l → s.type = t) :=
  C8_keys [wStrip] ["SOUND"] [] [("SOUND", [wStrip])] rfl

/-- C3: with `ignore_duplication=True` and `full_paths=True`,
`print_sequence_names` prints the header and one block per type: the block
title, then the per-type set of canonical paths (SOUND: the non-empty
`sound.filepath`; IMAGE: directory concatenated with the first element's
filename; MOVIE: the non-empty `filepath`), each distinct path exactly once
(the collected list has no duplicates and contains exactly the paths derived
from some strip); a type whose set yields no paths prints
`(0 sequences found)`. -/
theorem C3_dedup_print (sbt : List (String × List Sequence)) :
    (print_sequence_names sbt true true).1 =
      headerLine sbt true :: sbt.flatMap (fun p => printBlock true p.1 p.2) ∧
    (∀ t seqs,
      (found_files true t seqs).Nodup ∧
      (∀ p, p ∈ found_files true t seqs ↔ ∃ s ∈ seqs, pathOf true t s = some p) ∧
      (found_files true t seqs = [] →
        printBlock true t seqs = [("\n" ++ t ++ " strips:"), "(0 sequences found)"]) ∧
      (found_files true t seqs ≠ [] →
        printBlock true t seqs = ("\n" ++ t ++ " strips:") :: found_files true t seqs)) ∧
    (∀ s : Sequence,
      pathOf true "SOUND" s =
        (if s.sound_filepath = "" then none else some s.sound_filepath) ∧
      pathOf true "IMAGE" s = some (s.directory ++ s.elements.headD "") ∧
      pathOf true "MOVIE" s = (if s.filepath = "" then none else some s.filepath)) := by
    refine ⟨print_dup_out sbt true, ?_, ?_⟩
    · intro t seqs
      refine ⟨found_files_nodup true t seqs, mem_found_files true t seqs, ?_, ?_⟩
      · intro h; simp [printBlock, h]
      · intro h; simp [printBlock, h]
    · intro s
      exact ⟨rfl, rfl, rfl⟩

/-- C3 (witness): two IMAGE strips differing only in the duplication suffix
of their names share the path `//img/i.png`; the collected set has no
duplicates and contains exactly the derived paths, and the empty MOVIE type
prints `(0 sequences found)`. -/
theorem C3_witness :
    (found_files true "IMAGE" [imgStrip "img.001", imgStrip "img.002"]).Nodup ∧
    ("//img/i.png" ∈ found_files true "IMAGE" [imgStrip "img.001", imgStrip "img.002"] ↔
      ∃ s ∈ [imgStrip "img.001", imgStrip "img.002"],
        pathOf true "IMAGE" s = some "//img/i.png") ∧
    printBlock true "MOVIE" [] = ["\nMOVIE strips:", "(0 sequences found)"] := by
    have h := C3_dedup_print [("IMAGE", [imgStrip "img.001", imgStrip "img.002"]),
      ("MOVIE", [])]
    exact ⟨(h.2.1 "IMAGE" [imgStrip "img.001", imgStrip "img.002"]).1,
      (h.2.1 "IMAGE" [imgStrip "img.001", imgStrip "img.002"]).2.1 "//img/i.png",
      (h.2.1 "MOVIE" []).2.2.1 rfl⟩

/-- C7: with `ignore_duplication=False`, `print_sequence_names` prints, after
the header, one line `<type> sequence: <name>` per strip of every type's set,
using the strip's raw name, so the output has exactly one line per stored
strip and duplication-suffixed strips each get their own line. -/
theorem C7_raw_lines (sbt : List (String × List Sequence)) (fp : Bool) :
    (print_sequence_names sbt false fp).1 =
      headerLine sbt false ::
        sbt.flatMap (fun p => p.2.map (fun s => s.type ++ " sequence: " ++ s.name)) ∧
    (print_sequence_names sbt false fp).1.length =
      1 + (sbt.map (fun p => p.2.length)).sum := by
    refine ⟨print_nodup_out sbt fp, ?_⟩
    rw [print_nodup_out sbt fp]
    simp [List.length_flatMap, Function.comp_def, Nat.add_comm]

/-- C5: a `None` sequencer makes `find_sequence_names` print the error line
and return `None`, and the caller `run_strip_finder` does not recover: it
passes the `None` on to `print_sequence_names`, which raises, so the run ends
with only the error line printed and no result. -/
theorem C5_none_error (st : List String) (ign : List (String × IgnVal)) (dup : Bool)
    (rd : List (String × Option String)) (d : List (String × IgnVal))
    (hst : st ≠ []) (hbl : buildLoop st ign = some d) :
    find_sequence_names none st rd =
      (["Error finding sequence names: SEQUENCE_EDITOR not found"], none) ∧
    run_strip_finder st ign dup none =
      (["Error finding sequence names: SEQUENCE_EDITOR not found"], none) := by
    refine ⟨rfl, ?_⟩
    rw [run_eq_pipeline st ign dup none d hst hbl]
    rfl

/-- C5 (witness): instantiation at requested types `["SOUND"]` and an empty
`ignored_names` dictionary. -/
theorem C5_witness :
    find_sequence_names none ["SOUND"] ([] : List (String × Option String)) =
      (["Error finding sequence names: SEQUENCE_EDITOR not found"], none) ∧
    run_strip_finder ["SOUND"] [] true none =
      (["Error finding sequence names: SEQUENCE_EDITOR not found"], none) :=
  C5_none_error ["SOUND"] [] true [] [("SOUND", IgnVal.null)] (by decide) rfl

/-- C6: for a non-empty list of requested types, `run_strip_finder` is the
straight-line pipeline: (1) the regex-building loop turns `ignored_names`
into the dictionary `d`, (2) a single scan of the sequencer's strips builds
the filtered per-type dictionary from `d`, (3) the result is printed; the
whole run equals the printing of the scanned dictionary, with the built `d`
as the final state, and nothing else. -/
theorem C6_pipeline (st : List String) (ign : List (String × IgnVal)) (dup : Bool)
    (seqs : List Sequence) (d : List (String × IgnVal))
    (hst : st ≠ []) (hbl : buildLoop st ign = some d) :
    run_strip_finder st ign dup (some seqs) =
      ((print_sequence_names (seqs.foldl (scanStep st (toRd d)) (initTypes st))
          dup true).1, some d) := by
    rw [run_eq_pipeline st ign dup (some seqs) d hst hbl]
    rfl

/-- C6 (witness): instantiation at one SOUND strip, requested types
`["SOUND"]` and an empty `ignored_names` dictionary. -/
theorem C6_witness :
    run_strip_finder ["SOUND"] [] true (some [wStrip]) =
      ((print_sequence_names
          (([wStrip] : List Sequence).foldl
            (scanStep ["SOUND"] (toRd [("SOUND", IgnVal.null)])) (initTypes ["SOUND"]))
          true true).1, some [("SOUND", IgnVal.null)]) :=
  C6_pipeline ["SOUND"] [] true [wStrip] [("SOUND", IgnVal.null)] (by decide) rfl

/-- C9: the regex-building loop of `run_strip_finder` mutates `ignored_names`
in place: afterwards every requested type with a caller-supplied namestring
list maps to the built pattern string, every requested type without an entry
maps to `None`, no other key changes, and `build_ignored_names_re` leaves
every supplied namestring list empty (it pops every element). -/
theorem C9_mutation (st : List String) (ign : List (String × IgnVal))
    (hnd : st.Nodup)
    (hvals : ∀ t ∈ st, dlookup ign t = none ∨ ∃ l, dlookup ign t = some (IgnVal.names l)) :
    (∃ d', buildLoop st ign = some d' ∧
      (∀ t ∈ st,
        (∀ l, dlookup ign t = some (IgnVal.names l) →
          dlookup d' t = some (IgnVal.pat (build_ignored_names_re (some l) []).1)) ∧
        (dlookup ign t = none → dlookup d' t = some IgnVal.null)) ∧
      (∀ k, k ∉ st → dlookup d' k = dlookup ign k)) ∧
    (∀ l acc, (build_ignored_names_re (some l) acc).2 = some []) := by
    refine ⟨buildLoop_spec st ign hnd hvals, ?_⟩
    intro l acc
    rw [build_some]

/-- C9 (witness): instantiation at the script's own call, requested types
`["SOUND", "IMAGE"]` and ignore lists for SOUND, MOVIE and IMAGE. -/
theorem C9_witness :
    (∃ d', buildLoop ["SOUND", "IMAGE"]
        [("SOUND", IgnVal.names ["audio-"]), ("MOVIE", IgnVal.names []),
          ("IMAGE", IgnVal.names [])] = some d' ∧
      (∀ t ∈ (["SOUND", "IMAGE"] : List String),
        (∀ l, dlookup [("SOUND", IgnVal.names ["audio-"]), ("MOVIE", IgnVal.names []),
            ("IMAGE", IgnVal.names [])] t = some (IgnVal.names l) →
          dlookup d' t = some (IgnVal.pat (build_ignored_names_re (some l) []).1)) ∧
        (dlookup [("SOUND", IgnVal.names ["audio-"]), ("MOVIE", IgnVal.names []),
            ("IMAGE", IgnVal.names [])] t = none → dlookup d' t = some IgnVal.null)) ∧
      (∀ k, k ∉ (["SOUND", "IMAGE"] : List String) →
        dlookup d' k = dlookup [("SOUND", IgnVal.names ["audio-"]),
          ("MOVIE", IgnVal.names []), ("IMAGE", IgnVal.names [])] k)) ∧
    (∀ l acc, (build_ignored_names_re (some l) acc).2 = some []) :=
  C9_mutation ["SOUND", "IMAGE"]
    [("SOUND", IgnVal.names ["audio-"]), ("MOVIE", IgnVal.names []),
      ("IMAGE", IgnVal.names [])]
    (by decide)
    (by
      intro t ht
      rcases List.mem_cons.mp ht with rfl | ht
      · exact Or.inr ⟨["audio-"], rfl⟩
      · rcases List.mem_cons.mp ht with rfl | ht
        · exact Or.inr ⟨[], rfl⟩
        · simp at ht)

/-- C10: called with an empty `sequence_types` list, `run_strip_finder`
prints the single line `0 sequences found - no sequence types provided.` and
returns at once with `ignored_names` unmodified, and its behaviour does not
depend on the sequencer, which is never read. -/
theorem C10_empty_types (ign : List (String × IgnVal)) (dup : Bool)
    (s₁ s₂ : Option (List Sequence)) :
    run_strip_finder [] ign dup s₁ =
      (["0 sequences found - no sequence types provided."], some ign) ∧
    run_strip_finder [] ign dup s₁ = run_strip_finder [] ign dup s₂ :=
  ⟨rfl, rfl⟩
